import Mathlib

/-!
# Verification of the ommr4all line-detection pipeline

Shallow embedding of `linesegmentation/detection/lineDetection.py`
(`LineDetection.detect`, `detect_basic`, `detect_advanced`,
`detect_staff_lines`) and of the pipeline stages it invokes.

Stages whose implementation lives in modules not part of the provided
source (`lineDetector.py`, `lineDetectionUtil.py`, `preprocessingUtil.py`,
the binarizer and the enhancer) are modelled from the specification; each
such definition carries a doc comment starting `Modelled from the spec:`.
Grayscale pixel values are rationals (the Python code uses floats), binary
images are grids of booleans, and points are `(row, column)` pairs of
rationals.
-/

/-- A point of a polyline: `(row, column)`, the Python `[y, x]`; the code
works with integer pixel coordinates. -/
abbrev PPoint : Type := ℤ × ℤ

/-- A staff line candidate: ordered list of `(row, column)` points. -/
abbrev Polyline : Type := List PPoint

/-- A staff system: ordered list of lines. -/
abbrev StaffSystem : Type := List Polyline

/-- A raw grayscale image, entries in `0..255`, row major. -/
abbrev RawImg : Type := List (List ℕ)

/-- A scaled grayscale image, rational entries, row major. -/
abbrev GrayImg : Type := List (List ℚ)

/-- A binary image, row major. -/
abbrev BinImg : Type := List (List Bool)

/-- Settings of the line detection algorithm (`LineDetectionSettings`).
Only the fields read by the embedded code are kept. -/
structure LineDetectionSettings where
  numLine : ℕ
  minLength : ℕ
  lineExtension : Bool
  debug : Bool
  lineSpaceHeight : ℕ
  model : Option String
  post_process : Bool
  smooth_lines : ℤ
  smooth_value_lowpass : ℚ
  smooth_value_adv : ℚ
  line_fit_distance : ℚ
deriving DecidableEq

/-- Per-page aggregate (`ImageData`): source image, vertical-run estimates
and the horizontal-run-filtered image. -/
structure ImageData where
  image : GrayImg
  height : ℕ
  staff_space_height : ℕ
  staff_line_height : ℕ
  horizontal_runs_img : BinImg
deriving DecidableEq

/-- Columns of a polyline. -/
def colsOf (l : Polyline) : List ℤ := l.map Prod.snd

/-- Column of the first point (`l[0][1]`), `0` for the empty line. -/
def firstColOf (l : Polyline) : ℤ := ((colsOf l).head?).getD 0

/-- Column of the last point (`l[-1][1]`), `0` for the empty line. -/
def lastColOf (l : Polyline) : ℤ := ((colsOf l).getLast?).getD 0

/-- Horizontal span of a line: `l[-1][1] - l[0][1]`. -/
def spanOf (l : Polyline) : ℤ := lastColOf l - firstColOf l

/-- Last point of a line, `(0, 0)` for the empty line. -/
def lastPt (l : Polyline) : PPoint := (l.getLast?).getD (0, 0)

/-- Pixel of a binary image at integer coordinates; out of bounds reads
give `false`. -/
def pixAt (img : BinImg) (y x : ℤ) : Bool :=
  if y < 0 ∨ x < 0 then false
  else ((img.getD y.toNat []).getD x.toNat false)

/-- Pixel of a binary image under a point. -/
def pixAtPt (img : BinImg) (p : PPoint) : Bool :=
  pixAt img p.1 p.2

/-- Ink test in a binarized image (`true` = white background, ink = `false`);
out of bounds reads count as background. -/
def inkAt (img : BinImg) (y x : ℤ) : Bool :=
  if y < 0 ∨ x < 0 then false
  else !((img.getD y.toNat []).getD x.toNat true)

/-- Ink test under a point. -/
def inkAtPt (img : BinImg) (p : PPoint) : Bool :=
  inkAt img p.1 p.2

/-- A connected component: a maximal horizontal foreground run, with its
row, starting column `c0` and width `w` (it covers columns `c0 .. c0+w`,
hence is never empty). -/
structure CComponent where
  row : ℤ
  c0 : ℕ
  w : ℕ
deriving DecidableEq

/-- Run-length encode a row of booleans. -/
def splitRuns : List Bool → List (Bool × ℕ)
  | [] => []
  | b :: rest =>
    match splitRuns rest with
    | [] => [(b, 1)]
    | (b', n) :: rs => if b = b' then (b', n + 1) :: rs else (b, 1) :: (b', n) :: rs

/-- Components of one row from its run-length encoding, `x` being the
column where the encoded suffix starts. -/
def runsToCCs (y : ℤ) : ℕ → List (Bool × ℕ) → List CComponent
  | _, [] => []
  | x, (b, n) :: rest =>
    (if b ∧ 0 < n then [⟨y, x, n - 1⟩] else []) ++ runsToCCs y (x + n) rest

/-- Modelled from the spec: `extract_connected_components`
(`preprocessingUtil.py`, not in the provided source). Scans rows of the
run-length-filtered image and produces one component per contiguous
foreground run, retaining its row and column span. -/
def extract_connected_components (img : BinImg) : List CComponent :=
  (img.enum.map (fun yr => runsToCCs (yr.1 : ℤ) 0 (splitRuns yr.2))).flatten

/-- Merge of two same-row components into their covering span. -/
def mergeCC (c1 c2 : CComponent) : CComponent :=
  ⟨c1.row, c1.c0, (c2.c0 + c2.w) - c1.c0⟩

/-- One right-to-left merging pass over a component list. -/
def mergeAdjacent : List CComponent → List CComponent
  | [] => []
  | c :: rest =>
    match mergeAdjacent rest with
    | [] => [c]
    | c2 :: rs =>
      if c.row = c2.row ∧ c2.c0 ≤ c.c0 + c.w + 2 then mergeCC c c2 :: rs
      else c :: c2 :: rs

/-- Modelled from the spec: `normalize_connected_components`
(`preprocessingUtil.py`, not in the provided source). Discards degenerate
single-pixel components and merges components that are column-adjacent
within one pixel on the same row. -/
def normalize_connected_components (ccs : List CComponent) : List CComponent :=
  mergeAdjacent (ccs.filter (fun c => 0 < c.w))

/-- Sample points contributed by a component: `(row, c0), (row, c0+1), ...`
with `n + 1` points in total. -/
def compPointsAux (row : ℤ) (c0 : ℤ) : ℕ → Polyline
  | 0 => [(row, c0)]
  | n + 1 => (row, c0) :: compPointsAux row (c0 + 1) n

/-- All sample points of a component, columns `c0 .. c0 + w`. -/
def compPoints (c : CComponent) : Polyline :=
  compPointsAux c.row (c.c0 : ℤ) c.w

/-- Insertion of a component into a column-sorted list. -/
def insertByCol (c : CComponent) : List CComponent → List CComponent
  | [] => [c]
  | d :: rest => if c.c0 ≤ d.c0 then c :: d :: rest else d :: insertByCol c rest

/-- Sort components by starting column (processing order of the builder). -/
def sortByCol : List CComponent → List CComponent
  | [] => []
  | c :: rest => insertByCol c (sortByCol rest)

/-- Eligibility of an open line for a component: the component's row is
within `staff_line_height` of the line's last row, and the column gap from
the line's last point is positive and within a tolerance proportional to
`staff_space_height`. -/
def eligibleFor (c : CComponent) (slh ssh : ℕ) (l : Polyline) : Bool :=
  decide (|c.row - (lastPt l).1| ≤ (slh : ℤ)) &&
  decide (0 < (c.c0 : ℤ) - (lastPt l).2) &&
  decide ((c.c0 : ℤ) - (lastPt l).2 ≤ 3 * (ssh : ℤ))

/-- Tie-break key of an eligible line: vertical distance first, then gap. -/
def keyOf (c : CComponent) (l : Polyline) : ℤ × ℤ :=
  (|c.row - (lastPt l).1|, (c.c0 : ℤ) - (lastPt l).2)

/-- Lexicographic comparison of tie-break keys. -/
def betterKey (a b : ℤ × ℤ) : Bool :=
  decide (a.1 < b.1) || (decide (a.1 = b.1) && decide (a.2 < b.2))

/-- Best eligible open line for a component: smallest vertical distance,
then smallest gap, first occurrence on ties. -/
def bestLine (c : CComponent) (slh ssh : ℕ) (opens : List Polyline) : Option Polyline :=
  opens.foldl
    (fun acc l =>
      if eligibleFor c slh ssh l then
        acc.elim (some l)
          (fun m => if betterKey (keyOf c l) (keyOf c m) then some l else some m)
      else acc)
    none

/-- Replace the first occurrence of a line in a list. -/
def replaceFirst (opens : List Polyline) (old new : Polyline) : List Polyline :=
  match opens with
  | [] => []
  | l :: rest => if l = old then new :: rest else l :: replaceFirst rest old new

/-- One step of the builder: attach the component to the best eligible
open line, or start a new line from its points. -/
def connectStep (slh ssh : ℕ) (opens : List Polyline) (c : CComponent) : List Polyline :=
  match bestLine c slh ssh opens with
  | some l => replaceFirst opens l (l ++ compPoints c)
  | none => opens ++ [compPoints c]

/-- Modelled from the spec: `connect_connected_components_to_line`
(`lineDetector.py`, not in the provided source). Processes components in
column order; each component extends the best eligible open line (row
within `staff_line_height`, positive column gap within a tolerance
proportional to `staff_space_height`, ties broken by smallest vertical
distance then smallest gap) or starts a new line. -/
def connect_connected_components_to_line (ccs : List CComponent)
    (slh ssh : ℕ) : List Polyline :=
  (sortByCol ccs).foldl (connectStep slh ssh) []

/-- Modelled from the spec: `prune_small_lines` (`lineDetector.py`, not in
the provided source). Discards lines whose span is short relative to a
`staff_space_height`-derived expectation. -/
def prune_small_lines (line_list : List Polyline) (ssh : ℕ) : List Polyline :=
  line_list.filter (fun l => 2 * (ssh : ℤ) < spanOf l)

/-- Representative row of a line: the row of its first point. -/
def rowOf (l : Polyline) : ℤ := ((l.map Prod.fst).head?).getD 0

/-- Insertion of a line into a row-sorted list. -/
def insertByRow (l : Polyline) : List Polyline → List Polyline
  | [] => [l]
  | m :: rest => if rowOf l ≤ rowOf m then l :: m :: rest else m :: insertByRow l rest

/-- Sort lines from top to bottom by representative row. -/
def sortByRow : List Polyline → List Polyline
  | [] => []
  | l :: rest => insertByRow l (sortByRow rest)

/-- Greedy collection of the next `n` lines of a system: each collected
line's vertical offset from the previous one must be within half of
`staff_space_height` of `staff_space_height`; returns the group and the
unconsumed rest, or `none` if the spacing breaks before `n` lines are
found. -/
def collectSys (ssh : ℤ) : ℕ → ℤ → List Polyline → Option (List Polyline × List Polyline)
  | 0, _, rest => some ([], rest)
  | _ + 1, _, [] => none
  | n + 1, prevRow, l :: rest =>
    if 2 * |rowOf l - prevRow - ssh| ≤ ssh then
      match collectSys ssh n (rowOf l) rest with
      | some (grp, r2) => some (l :: grp, r2)
      | none => none
    else none

/-- Fuelled greedy grouping: start a group at the topmost unassigned line;
if a complete group of `numLine` lines forms, emit it, otherwise drop the
starting line and continue. -/
def organizeFuel (numLine : ℕ) (ssh : ℤ) : ℕ → List Polyline → List StaffSystem
  | 0, _ => []
  | _ + 1, [] => []
  | fuel + 1, l :: rest =>
    match collectSys ssh (numLine - 1) (rowOf l) rest with
    | some (grp, r2) => (l :: grp) :: organizeFuel numLine ssh fuel r2
    | none => organizeFuel numLine ssh fuel rest

/-- Modelled from the spec: `organize_lines_in_systems` (`lineDetector.py`,
not in the provided source). Groups row-ordered lines into systems of
exactly `numLine` consistently spaced lines; leftover lines that cannot
form a complete group are dropped. -/
def organize_lines_in_systems (line_list : List Polyline)
    (ssh _slh numLine : ℕ) : List StaffSystem :=
  organizeFuel numLine (ssh : ℤ) line_list.length (sortByRow line_list)

/-- Number of a line's points that hit foreground in the run-length
image. -/
def lineHits (img : BinImg) (l : Polyline) : ℕ :=
  (l.filter (fun p => pixAtPt img p)).length

/-- Total number of points of a system's lines. -/
def sysPoints (sys : StaffSystem) : ℕ := (sys.map List.length).sum

/-- Total number of foreground hits of a system's lines. -/
def sysHits (img : BinImg) (sys : StaffSystem) : ℕ :=
  (sys.map (lineHits img)).sum

/-- Modelled from the spec: `prune_lines_in_system_with_lowest_intensity`
(`lineDetector.py`, not in the provided source). Drops a system when the
mean pixel intensity under its lines' paths in the run-length image falls
below a threshold relative to the page's overall intensity: a system is
kept when its hit fraction is at least half the page's foreground
fraction, stated in cross-multiplied form. -/
def prune_lines_in_system_with_lowest_intensity
    (staff_list : List StaffSystem) (img : BinImg) : List StaffSystem :=
  staff_list.filter (fun sys =>
    (img.flatten.filter id).length * sysPoints sys ≤
      2 * sysHits img sys * img.flatten.length)

/-- Linear extrapolation of a line's row value at column `x`, from the
line's first two points (constant for a single-point line), rounded by
integer division. -/
def extrapAt (l : Polyline) (x : ℤ) : ℤ :=
  match l with
  | [] => 0
  | [p] => p.1
  | p :: q :: _ => p.1 + (x - p.2) * (q.1 - p.1) / (q.2 - p.2)

/-- Row adjustment by sampling the run-length image near the extrapolated
row at column `x`. -/
def adjustRow (img : BinImg) (x y : ℤ) : ℤ :=
  if pixAtPt img (y, x) then y
  else if pixAtPt img (y - 1, x) then y - 1
  else if pixAtPt img (y + 1, x) then y + 1
  else y

/-- Extension of one line to the common columns `L` and `R` of its system,
by linear extrapolation from its nearest endpoints, the extrapolated row
adjusted against the run-length image. -/
def extendLine (img : BinImg) (L R : ℤ) (l : Polyline) : Polyline :=
  (if L < firstColOf l ∧ l ≠ [] then [(adjustRow img L (extrapAt l L), L)] else [])
    ++ l ++
  (if lastColOf l < R ∧ l ≠ [] then [(adjustRow img R (extrapAt l.reverse R), R)] else [])

/-- Leftmost first column of a system's lines. -/
def sysLeft (sys : StaffSystem) : ℤ :=
  match sys.map firstColOf with
  | [] => 0
  | c :: cs => cs.foldl min c

/-- Rightmost last column of a system's lines. -/
def sysRight (sys : StaffSystem) : ℤ :=
  match sys.map lastColOf with
  | [] => 0
  | c :: cs => cs.foldl max c

/-- Modelled from the spec: `normalize_lines_in_system` (`lineDetector.py`,
not in the provided source). Extends every line in a system to share a
common leftmost and rightmost column by linear extrapolation from each
line's nearest endpoints, sampling the run-length image to adjust the
extension. -/
def normalize_lines_in_system (staff_list : List StaffSystem)
    (_ssh : ℕ) (img : BinImg) : List StaffSystem :=
  staff_list.map (fun sys => sys.map (extendLine img (sysLeft sys) (sysRight sys)))

/-- Recovery of one line's boundary points against the binarized source
image: the line grows by one point on a side when ink continues there. -/
def recoverLine (bin : BinImg) (l : Polyline) : Polyline :=
  match l with
  | [] => []
  | p :: rest =>
    let lst := lastPt (p :: rest)
    (if inkAtPt bin (p.1, p.2 - 1) then [(p.1, p.2 - 1)] else [])
      ++ (p :: rest) ++
    (if inkAtPt bin (lst.1, lst.2 + 1) then [(lst.1, lst.2 + 1)] else [])

/-- Modelled from the spec: `postprocess_staff_systems` (`lineDetector.py`,
not in the provided source). Re-examines each system's boundary rows
against the binarized (not run-length-filtered) source image to recover
segments lost to run-length filtering. -/
def postprocess_staff_systems (staff_list : List StaffSystem)
    (_slh : ℕ) (bin : BinImg) : List StaffSystem :=
  staff_list.map (fun sys => sys.map (recoverLine bin))

/-- Mean of the slice `ys[lo : hi]` of row values, rounded by integer
division. -/
def sliceAvg (ys : List ℤ) (lo hi : ℕ) : ℤ :=
  let s := (ys.drop lo).take (hi - lo)
  s.sum / (s.length : ℤ)

/-- Low-pass pass over a line's rows: each row becomes the mean of the rows
in a window of radius `r` around it; columns are untouched. -/
def smoothAux (ys : List ℤ) (r : ℕ) : ℕ → Polyline → Polyline
  | _, [] => []
  | i, p :: rest => (sliceAvg ys (i - r) (i + r + 1), p.2) :: smoothAux ys r (i + 1) rest

/-- Low-pass smoothing of one line with strength `v` (window radius
`⌊v⌋`). -/
def smoothLine (v : ℚ) (l : Polyline) : Polyline :=
  smoothAux (l.map Prod.fst) ⌊v⌋.toNat 0 l

/-- Modelled from the spec: `smooth_lines` (`lineDetector.py`, not in the
provided source). Low-pass filter over each line's row values by column,
preserving the column sampling. -/
def smooth_lines (staff_list : List StaffSystem) (v : ℚ) : List StaffSystem :=
  staff_list.map (fun sys => sys.map (smoothLine v))

/-- Iterated low-pass passes. -/
def smoothTimes : ℕ → List StaffSystem → List StaffSystem
  | 0, sl => sl
  | n + 1, sl => smoothTimes n (smooth_lines sl 2)

/-- Modelled from the spec: `smooth_lines_advanced` (`lineDetector.py`, not
in the provided source). Stronger iterative smoothing variant with its own
strength parameter. -/
def smooth_lines_advanced (staff_list : List StaffSystem) (v : ℚ) : List StaffSystem :=
  smoothTimes ⌈v⌉.toNat staff_list

/-- Vertical deviation of point `r` from the chord through `p` and `q`,
as an exact rational. -/
def devFrom (p q r : PPoint) : ℚ :=
  |(r.1 : ℚ) - ((p.1 : ℚ) + ((r.2 : ℚ) - (p.2 : ℚ)) * ((q.1 : ℚ) - (p.1 : ℚ)) / ((q.2 : ℚ) - (p.2 : ℚ)))|

/-- Piecewise-linear simplification of one line within tolerance `d`:
endpoints are kept, interior points within `d` of the endpoint chord are
dropped. -/
def fitLine (d : ℚ) (l : Polyline) : Polyline :=
  match l with
  | [] => []
  | [p] => [p]
  | p :: q :: rest =>
    let lst := lastPt (q :: rest)
    p :: (((q :: rest).dropLast.filter (fun r => d < devFrom p lst r)) ++ [lst])

/-- Modelled from the spec: `line_fitting` (`lineDetector.py`, not in the
provided source). Replaces each line with a fitted piecewise-linear
approximation within the given distance tolerance, reducing point count
while bounding deviation. -/
def line_fitting (staff_list : List StaffSystem) (d : ℚ) : List StaffSystem :=
  staff_list.map (fun sys => sys.map (fitLine d))

/-- Lines `117`–`127` of `lineDetection.py`: component extraction,
normalization, line building, the fixed 50-pixel length filter and
`prune_small_lines`. -/
def lineStage (d : ImageData) : List Polyline :=
  let cc_list := extract_connected_components d.horizontal_runs_img
  let cc_list := normalize_connected_components cc_list
  let line_list := connect_connected_components_to_line cc_list
    d.staff_line_height d.staff_space_height
  let line_list := line_list.filter (fun l => 50 < spanOf l)
  prune_small_lines line_list d.staff_space_height

/-- Lines `129`–`136` of `lineDetection.py`: grouping into systems,
intensity pruning and optional normalization when `numLine > 1`, otherwise
each line becomes its own singleton system. -/
def groupStage (s : LineDetectionSettings) (d : ImageData)
    (line_list : List Polyline) : List StaffSystem :=
  if 1 < s.numLine then
    let staff_list := organize_lines_in_systems line_list
      d.staff_space_height d.staff_line_height s.numLine
    let staff_list := prune_lines_in_system_with_lowest_intensity staff_list
      d.horizontal_runs_img
    if s.lineExtension then
      normalize_lines_in_system staff_list d.staff_space_height d.horizontal_runs_img
    else staff_list
  else line_list.map (fun x => [x])

/-- Modelled from the spec: the binarizer collaborator (`binarize`,
`ocropus_binarizer.py`, not in the provided source). Takes a float
grayscale image in `[0,1]` and returns a binary mask, `true` = white
background. -/
def binarize (g : GrayImg) : BinImg :=
  g.map (fun row => row.map (fun v => decide ((1 : ℚ) / 2 ≤ v)))

/-- Lines `138`–`141` of `lineDetection.py`: optional post-processing
against the binarized source image, re-running the normalizer when both
`numLine > 1` and `lineExtension` hold. -/
def postStage (s : LineDetectionSettings) (d : ImageData)
    (staff_list : List StaffSystem) : List StaffSystem :=
  if s.post_process then
    let staff_list := postprocess_staff_systems staff_list
      d.staff_line_height (binarize d.image)
    if 1 < s.numLine ∧ s.lineExtension then
      normalize_lines_in_system staff_list d.staff_space_height d.horizontal_runs_img
    else staff_list
  else staff_list

/-- Lines `143`–`147` of `lineDetection.py`: optional smoothing, low-pass
for `smooth_lines = 1` and advanced for `smooth_lines = 2`. -/
def smoothStage (s : LineDetectionSettings)
    (staff_list : List StaffSystem) : List StaffSystem :=
  if s.smooth_lines ≠ 0 then
    let staff_list := if s.smooth_lines = 1 then
      smooth_lines staff_list s.smooth_value_lowpass else staff_list
    if s.smooth_lines = 2 then
      smooth_lines_advanced staff_list s.smooth_value_adv else staff_list
  else staff_list

/-- Lines `149`–`150` of `lineDetection.py`: optional curve fitting when
`line_fit_distance > 0`. -/
def fitStage (s : LineDetectionSettings)
    (staff_list : List StaffSystem) : List StaffSystem :=
  if 0 < s.line_fit_distance then line_fitting staff_list s.line_fit_distance
  else staff_list

/-- `LineDetection.detect_staff_lines` (lines `112`–`171` of
`lineDetection.py`): the fixed linear pipeline over one page's
`ImageData`. -/
def detect_staff_lines (s : LineDetectionSettings) (d : ImageData) : List StaffSystem :=
  fitStage s (smoothStage s (postStage s d (groupStage s d (lineStage d))))

/-- Names of the pipeline stages of `detect_staff_lines`. -/
inductive PipeStage where
  | extractCC
  | normalizeCC
  | connectCC
  | lengthFilter
  | pruneSmall
  | organizeSys
  | pruneIntensity
  | normalizeSys
  | singletonWrap
  | postprocessSys
  | smoothLow
  | smoothAdv
  | lineFit
deriving DecidableEq

/-- Stage sequence executed by `detect_staff_lines` for given settings,
transcribing its control flow (the guards at lines `129`, `132`, `138`,
`140`, `143`–`146` and `149` of `lineDetection.py`). -/
def detectStages (s : LineDetectionSettings) : List PipeStage :=
  [PipeStage.extractCC, PipeStage.normalizeCC, PipeStage.connectCC,
   PipeStage.lengthFilter, PipeStage.pruneSmall]
  ++ (if 1 < s.numLine then
        [PipeStage.organizeSys, PipeStage.pruneIntensity]
        ++ (if s.lineExtension then [PipeStage.normalizeSys] else [])
      else [PipeStage.singletonWrap])
  ++ (if s.post_process then
        [PipeStage.postprocessSys]
        ++ (if 1 < s.numLine ∧ s.lineExtension then [PipeStage.normalizeSys] else [])
      else [])
  ++ (if s.smooth_lines ≠ 0 then
        (if s.smooth_lines = 1 then [PipeStage.smoothLow] else [])
        ++ (if s.smooth_lines = 2 then [PipeStage.smoothAdv] else [])
      else [])
  ++ (if 0 < s.line_fit_distance then [PipeStage.lineFit] else [])

/-- Scaling of a raw image to `[0,1]`: `img.astype(float) / 255`. -/
def scaleImg (img : RawImg) : GrayImg :=
  img.map (fun row => row.map (fun (v : ℕ) => (v : ℚ) / 255))

/-- Smallest entry of a grayscale image (`0` when empty). -/
def gridMin (g : GrayImg) : ℚ :=
  match g.flatten with
  | [] => 0
  | v :: vs => vs.foldl min v

/-- Largest entry of a grayscale image (`0` when empty). -/
def gridMax (g : GrayImg) : ℚ :=
  match g.flatten with
  | [] => 0
  | v :: vs => vs.foldl max v

/-- Bin index of a value for a 10-bin histogram over `[lo, hi]`, the last
edge inclusive. -/
def binIdx (lo hi v : ℚ) : ℕ :=
  min 9 (⌊(v - lo) * 10 / (hi - lo)⌋.toNat)

/-- Embedding of `np.histogram(gray)[0]`: counts of a 10-bin histogram over
the data's `[min, max]` range; an all-equal or empty input widens the range
the way numpy does. -/
def np_histogram (g : GrayImg) : List ℕ :=
  let vs := g.flatten
  let lo := gridMin g
  let hi := gridMax g
  let lo' := if vs = [] then 0 else if lo = hi then lo - 1 / 2 else lo
  let hi' := if vs = [] then 1 else if lo = hi then hi + 1 / 2 else hi
  (List.range 10).map (fun i => (vs.filter (fun v => binIdx lo' hi' v = i)).length)

/-- Sum of the histogram slice `[1:-2]`, i.e. bins `1` through `7`. -/
def histInner (h : List ℕ) : ℕ := ((h.drop 1).take 7).sum

/-- Modelled from the spec: the enhancer collaborator (`enhance`,
`enhancer.py`, not in the provided source). Takes a grayscale image and
returns a contrast-normalized grayscale image (min-max normalization, the
identity on a constant or empty image). -/
def enhance (g : GrayImg) : GrayImg :=
  let lo := gridMin g
  let hi := gridMax g
  if lo = hi then g
  else g.map (fun row => row.map (fun v => (v - lo) / (hi - lo)))

/-- Complement of a binary image (the arithmetic `1 - b`). -/
def notGrid (b : BinImg) : BinImg := b.map (fun row => row.map (fun x => !x))

/-- Window offsets of the vertical `(5, 1)` structuring element. -/
def vWindow : List ℤ := [-2, -1, 0, 1, 2]

/-- Embedding of `scipy.ndimage.binary_erosion` with a `(5, 1)` structuring
element of ones and border value `0`. -/
def binary_erosion5 (b : BinImg) : BinImg :=
  b.enum.map (fun yr =>
    yr.2.enum.map (fun xv =>
      vWindow.all (fun dy => pixAt b ((yr.1 : ℤ) + dy) (xv.1 : ℤ))))

/-- Embedding of `scipy.ndimage.binary_dilation` with a `(5, 1)`
structuring element of ones and border value `0`. -/
def binary_dilation5 (b : BinImg) : BinImg :=
  b.enum.map (fun yr =>
    yr.2.enum.map (fun xv =>
      vWindow.any (fun dy => pixAt b ((yr.1 : ℤ) + dy) (xv.1 : ℤ))))

/-- Pointwise exclusive or of two binary images of equal shape. -/
def xorGrid (a b : BinImg) : BinImg :=
  (a.zip b).map (fun rr => (rr.1.zip rr.2).map (fun xy => xor xy.1 xy.2))

/-- Most frequent value of a list of naturals (first maximum, `0` when
empty). -/
def modeOf (ns : List ℕ) : ℕ :=
  ns.foldl (fun best n => if ns.count best < ns.count n then n else best) 0

/-- Modelled from the spec: `vertical_runs` (`lineDetectionUtil.py`, not in
the provided source). Computes per column the alternating run lengths of
the binary image (`true` = white, ink = `false`) and returns the mode of
the white runs as `staff_space_height` and the mode of the ink runs as
`staff_line_height`; with no foreground pixels it returns length-zero
estimates. -/
def vertical_runs (b : BinImg) : ℕ × ℕ :=
  if (b.flatten.filter (fun x => !x)).length = 0 then (0, 0)
  else
    let runs := (b.transpose.map splitRuns).flatten
    let space := modeOf ((runs.filter (fun r => r.1)).map Prod.snd)
    let line := modeOf ((runs.filter (fun r => !r.1)).map Prod.snd)
    (space, line)

/-- Mark a run-length-encoded row: a pixel survives when it belongs to an
ink run (value `false` in the input) of length at least `minLength`. -/
def markRuns (minLength : ℕ) (rs : List (Bool × ℕ)) : List Bool :=
  (rs.map (fun r => List.replicate r.2 (!r.1 && decide (minLength ≤ r.2)))).flatten

/-- Modelled from the spec: `calculate_horizontal_runs`
(`lineDetectionUtil.py`, not in the provided source). Ink runs (`false`
pixels of the input) shorter than `minLength` are suppressed; the output
marks the surviving run pixels with `true`. -/
def calculate_horizontal_runs (img : BinImg) (minLength : ℕ) : BinImg :=
  img.map (fun row => markRuns minLength (splitRuns row))

/-- Grayscale image kept by `detect_basic` for binarization (lines `88`–`90`
of `lineDetection.py`): the scaled image, contrast enhanced unless the
histogram slice `[1:-2]` carries no mass. -/
def basic_gray (img : RawImg) : GrayImg :=
  let image := scaleImg img
  if histInner (np_histogram image) ≠ 0 then enhance image else image

/-- Per-image body of `detect_basic` (lines `86`–`97` of
`lineDetection.py`): builds the page's `ImageData`. -/
def basic_image_data (s : LineDetectionSettings) (img : RawImg) : ImageData :=
  let image := scaleImg img
  let gray := basic_gray img
  let binary := binarize gray
  let binarized := notGrid binary
  let morph := binary_dilation5 (binary_erosion5 binarized)
  let staffs := xorGrid binarized morph
  let vr := vertical_runs binary
  { image := image
    height := 0
    staff_space_height := vr.1
    staff_line_height := vr.2
    horizontal_runs_img := calculate_horizontal_runs (notGrid staffs) s.minLength }

/-- Per-image result of `detect_basic`. -/
def process_basic (s : LineDetectionSettings) (img : RawImg) : List StaffSystem :=
  detect_staff_lines s (basic_image_data s img)

/-- `LineDetection.detect_basic` (lines `84`–`98` of `lineDetection.py`),
the generator written as a list. -/
def detect_basic (s : LineDetectionSettings) (images : List RawImg) :
    List (List StaffSystem) :=
  images.map (process_basic s)

/-- Modelled from the spec: `create_data` (`lineDetector.py`, not in the
provided source). Builds the page's `ImageData` from the raw image and the
line-space-height hint; the image is stored unscaled. -/
def create_data (lineSpaceHeight : ℕ) (img : RawImg) : ImageData :=
  { image := img.map (fun row => row.map (fun (v : ℕ) => (v : ℚ)))
    height := lineSpaceHeight
    staff_space_height := 0
    staff_line_height := 0
    horizontal_runs_img := [] }

/-- Thresholding of a predicted mask, `pred[pred > 0] = 255` (line `107` of
`lineDetection.py`): a pixel is a staff pixel when its prediction is
positive. -/
def predMask (p : GrayImg) : BinImg :=
  p.map (fun row => row.map (fun v => decide (0 < v)))

/-- `LineDetection.detect_advanced` (lines `100`–`110` of
`lineDetection.py`), the external neural predictor passed as a function
and the generator written as a list. -/
def detect_advanced (s : LineDetectionSettings)
    (predict : List ImageData → List GrayImg) (images : List RawImg) :
    List (List StaffSystem) :=
  let data := images.map (create_data s.lineSpaceHeight)
  (data.zip (predict data)).map (fun dp =>
    let vr := vertical_runs (binarize (dp.1.image.map (fun row => row.map (fun v => v / 255))))
    let hr := calculate_horizontal_runs (notGrid (predMask dp.2)) s.minLength
    detect_staff_lines s
      { dp.1 with staff_space_height := vr.1, staff_line_height := vr.2,
                  horizontal_runs_img := hr })

/-- Python truthiness of the `model` setting: absent or empty is falsy. -/
def modelTruthy (m : Option String) : Bool :=
  match m with
  | none => false
  | some p => decide (p.length ≠ 0)

/-- `LineDetection.detect` (lines `48`–`82` of `lineDetection.py`): the
basic path when `settings.model` is falsy, the advanced path otherwise. -/
def detect (s : LineDetectionSettings)
    (predict : List ImageData → List GrayImg) (images : List RawImg) :
    List (List StaffSystem) :=
  if !modelTruthy s.model then detect_basic s images
  else detect_advanced s predict images

/-- Settings with an absent model, grouping enabled and all optional
stages off. -/
def settingsBasic : LineDetectionSettings :=
  ⟨5, 6, true, false, 20, none, false, 0, 5, 1, 0⟩

/-- Settings with `smooth_lines = 1`. -/
def settingsSmooth1 : LineDetectionSettings :=
  ⟨5, 6, true, false, 20, none, false, 1, 5, 1, 0⟩

/-- Settings with `line_fit_distance = 1`. -/
def settingsFit1 : LineDetectionSettings :=
  ⟨5, 6, true, false, 20, none, false, 0, 5, 1, 1⟩

/-- C5: for every list of input images, `detect` yields exactly the results
of `detect_basic` when `settings.model` is absent/falsy, and exactly the
results of `detect_advanced` when `settings.model` is present; the two
paths are never mixed for one call. -/
theorem detect_dispatches_on_model (s : LineDetectionSettings)
    (predict : List ImageData → List GrayImg) (images : List RawImg) :
    (modelTruthy s.model = false → detect s predict images = detect_basic s images) ∧
    (modelTruthy s.model = true → detect s predict images = detect_advanced s predict images) := by
  constructor <;> intro h <;> simp [detect, h]

/-- Witness for C5 at concrete settings with an absent model. -/
theorem detect_dispatches_on_model_witness :
    detect settingsBasic (fun _ => []) [] = detect_basic settingsBasic [] :=
  (detect_dispatches_on_model settingsBasic (fun _ => []) []).1 rfl

/-- C6: the smoothing stage of `detect_staff_lines` is governed by
`settings.smooth_lines`: `0` leaves the staff list unchanged, `1` applies
the low-pass smoother with strength `smooth_value_lowpass`, `2` applies
the advanced smoother with strength `smooth_value_adv`. -/
theorem smooth_stage_gating (s : LineDetectionSettings) (d : ImageData)
    (sl : List StaffSystem) :
    detect_staff_lines s d =
      fitStage s (smoothStage s (postStage s d (groupStage s d (lineStage d)))) ∧
    (s.smooth_lines = 0 → smoothStage s sl = sl) ∧
    (s.smooth_lines = 1 → smoothStage s sl = smooth_lines sl s.smooth_value_lowpass) ∧
    (s.smooth_lines = 2 → smoothStage s sl = smooth_lines_advanced sl s.smooth_value_adv) := by
  refine ⟨rfl, ?_, ?_, ?_⟩ <;> intro h <;> simp [smoothStage, h]

/-- Witness for C6 at concrete settings with `smooth_lines = 1`. -/
theorem smooth_stage_gating_witness :
    smoothStage settingsSmooth1 [[[((0 : ℤ), (0 : ℤ))]]] =
      smooth_lines [[[((0 : ℤ), (0 : ℤ))]]] 5 :=
  (smooth_stage_gating settingsSmooth1 ⟨[], 0, 0, 0, []⟩ _).2.2.1 rfl

/-- C7: curve fitting is applied to the staff list if and only if
`settings.line_fit_distance` is strictly greater than `0`; otherwise the
staff list passes the fitting stage unchanged. -/
theorem fit_stage_gating (s : LineDetectionSettings) (sl : List StaffSystem) :
    (PipeStage.lineFit ∈ detectStages s ↔ 0 < s.line_fit_distance) ∧
    (0 < s.line_fit_distance → fitStage s sl = line_fitting sl s.line_fit_distance) ∧
    (¬ 0 < s.line_fit_distance → fitStage s sl = sl) := by
  refine ⟨?_, fun h => by simp [fitStage, h], fun h => by simp [fitStage, h]⟩
  constructor
  · intro h
    simp only [detectStages, List.mem_append] at h
    rcases h with ((((h | h) | h) | h) | h)
    · simp at h
    · split at h
      · simp only [List.mem_append] at h
        rcases h with h | h
        · simp at h
        · split at h <;> simp at h
      · simp at h
    · split at h
      · simp only [List.mem_append] at h
        rcases h with h | h
        · simp at h
        · split at h <;> simp at h
      · simp at h
    · split at h
      · simp only [List.mem_append] at h
        rcases h with h | h <;> split at h <;> simp at h
      · simp at h
    · split at h
      · assumption
      · simp at h
  · intro h
    simp [detectStages, h]

/-- Witness for C7 at concrete settings with `line_fit_distance = 1`. -/
theorem fit_stage_gating_witness :
    fitStage settingsFit1 [[[((0 : ℤ), (0 : ℤ))]]] =
      line_fitting [[[((0 : ℤ), (0 : ℤ))]]] 1 :=
  (fit_stage_gating settingsFit1 _).2.1 (by norm_num [settingsFit1])

/-- Re-run of the geometry normalizer after post-processing: the
`normalizeSys` stage occurs in the stage sequence at or after the
`postprocessSys` stage. -/
def postRenormalized (s : LineDetectionSettings) : Prop :=
  PipeStage.normalizeSys ∈
    (detectStages s).dropWhile (fun st => st != PipeStage.postprocessSys)

/-- Settings with `numLine = 1`, `post_process` and `lineExtension` both
enabled. -/
def settingsPostNoGroup : LineDetectionSettings :=
  ⟨1, 6, true, false, 20, none, true, 0, 5, 1, 0⟩

/-- C2, counterexample: with `numLine = 1`, `post_process = true` and
`lineExtension = true`, the normalizer is not re-run after post-processing
even though both flags of the claim are enabled, because the guard at line
`140` of `lineDetection.py` also requires `numLine > 1`. -/
theorem postprocess_renormalize_claim_false :
    ¬ postRenormalized settingsPostNoGroup ∧
    settingsPostNoGroup.post_process = true ∧
    settingsPostNoGroup.lineExtension = true := by
  refine ⟨?_, rfl, rfl⟩
  simp only [postRenormalized]
  decide

set_option maxHeartbeats 1600000 in
/-- C2, amended: after the post-processing stage runs, the geometry
normalizer is re-run if and only if `post_process`, `lineExtension` and
`numLine > 1` all hold; no other stage is ever re-entered. -/
theorem postprocess_renormalize_guard (s : LineDetectionSettings) :
    (postRenormalized s ↔
      (s.post_process = true ∧ 1 < s.numLine ∧ s.lineExtension = true)) ∧
    (∀ st : PipeStage, st ≠ PipeStage.normalizeSys →
      (detectStages s).count st ≤ 1) := by
  constructor
  · simp only [postRenormalized, detectStages]
    split_ifs <;> simp_all
  · intro st hst
    cases st <;>
      first
      | exact absurd rfl hst
      | (simp only [detectStages]; split_ifs <;> decide)

/-- Witness for C2 at concrete settings with all three flags enabled. -/
theorem postprocess_renormalize_guard_witness :
    (detectStages ⟨5, 6, true, false, 20, none, true, 0, 5, 1, 0⟩).count
      PipeStage.postprocessSys ≤ 1 :=
  (postprocess_renormalize_guard ⟨5, 6, true, false, 20, none, true, 0, 5, 1, 0⟩).2
    PipeStage.postprocessSys (by decide)

/-- Settings with `numLine = 1` and every optional stage off. -/
def settingsSingle : LineDetectionSettings :=
  ⟨1, 6, false, false, 20, none, false, 0, 5, 1, 0⟩

/-- C9: with `numLine ≤ 1`, `detect_staff_lines` wraps each surviving
pruned line into its own singleton system, in the line list's order, and
the system organizer, the intensity-based system pruner and the geometry
normalizer are not invoked. -/
theorem numline_one_singleton_systems (s : LineDetectionSettings) (d : ImageData)
    (h : s.numLine ≤ 1) :
    groupStage s d (lineStage d) = (lineStage d).map (fun l => [l]) ∧
    detect_staff_lines s d =
      fitStage s (smoothStage s (postStage s d ((lineStage d).map (fun l => [l])))) ∧
    PipeStage.organizeSys ∉ detectStages s ∧
    PipeStage.pruneIntensity ∉ detectStages s ∧
    PipeStage.normalizeSys ∉ detectStages s := by
  have hn : ¬ 1 < s.numLine := by omega
  refine ⟨by simp [groupStage, hn],
          by simp [detect_staff_lines, groupStage, hn], ?_, ?_, ?_⟩ <;>
  · intro hm
    simp only [detectStages] at hm
    rw [if_neg hn] at hm
    simp only [List.mem_append] at hm
    rcases hm with ((((hm | hm) | hm) | hm) | hm)
    · simp at hm
    · simp at hm
    · split at hm
      · simp only [List.mem_append] at hm
        rcases hm with hm | hm
        · simp at hm
        · rw [if_neg (by simp [hn])] at hm
          simp at hm
      · simp at hm
    · split at hm
      · simp only [List.mem_append] at hm
        rcases hm with hm | hm <;> split at hm <;> simp at hm
      · simp at hm
    · split at hm <;> simp at hm

/-- Witness for C9 at concrete settings with `numLine = 1`. -/
theorem numline_one_singleton_systems_witness :
    groupStage settingsSingle ⟨[], 0, 0, 0, []⟩ (lineStage ⟨[], 0, 0, 0, []⟩) =
      (lineStage ⟨[], 0, 0, 0, []⟩).map (fun l => [l]) :=
  (numline_one_singleton_systems settingsSingle ⟨[], 0, 0, 0, []⟩ (by decide)).1

/-- Sample points of a component have strictly increasing columns. -/
theorem chain_compPointsAux (row : ℤ) (n : ℕ) :
    ∀ c0 : ℤ, List.Chain' (fun p q : PPoint => p.2 < q.2) (compPointsAux row c0 n) := by
  induction n with
  | zero => intro c0; simp [compPointsAux]
  | succ n ih =>
    intro c0
    have hh : (compPointsAux row (c0 + 1) n).head? = some (row, c0 + 1) := by
      cases n <;> rfl
    refine List.chain'_cons'.mpr ⟨?_, ih (c0 + 1)⟩
    intro y hy
    rw [hh] at hy
    cases hy
    simp only
    linarith

/-- First point of a component's sample points. -/
theorem head_compPointsAux (row c0 : ℤ) (n : ℕ) :
    (compPointsAux row c0 n).head? = some (row, c0) := by
  cases n <;> rfl

/-- Specification of `bestLine` through its fold: any produced line
satisfies any property holding on the accumulator and on every eligible
member of the list. -/
theorem bestLine_fold_spec (c : CComponent) (slh ssh : ℕ)
    (R : Polyline → Prop) :
    ∀ (xs : List Polyline) (acc : Option Polyline),
      (∀ l, acc = some l → R l) →
      (∀ l ∈ xs, eligibleFor c slh ssh l = true → R l) →
      ∀ l, xs.foldl
        (fun acc l =>
          if eligibleFor c slh ssh l then
            acc.elim (some l)
              (fun m => if betterKey (keyOf c l) (keyOf c m) then some l else some m)
          else acc) acc = some l → R l := by
  intro xs
  induction xs with
  | nil => intro acc hacc _ l hl; exact hacc l hl
  | cons x rest ih =>
    intro acc hacc hxs l hl
    refine ih _ ?_ (fun l hm he => hxs l (List.mem_cons_of_mem _ hm) he) l hl
    intro m hm
    simp only at hm
    by_cases he : eligibleFor c slh ssh x = true
    · rw [if_pos he] at hm
      cases acc with
      | none =>
        simp only [Option.elim] at hm
        cases hm; exact hxs x (List.mem_cons_self _ _) he
      | some a =>
        simp only [Option.elim] at hm
        by_cases hb : betterKey (keyOf c x) (keyOf c a) = true
        · rw [if_pos hb] at hm; cases hm; exact hxs x (List.mem_cons_self _ _) he
        · rw [if_neg hb] at hm; exact hacc m hm
    · rw [if_neg he] at hm; exact hacc m hm

/-- A line returned by `bestLine` is a member of the open list and is
eligible for the component. -/
theorem bestLine_spec (c : CComponent) (slh ssh : ℕ) (opens : List Polyline)
    (l : Polyline) (h : bestLine c slh ssh opens = some l) :
    l ∈ opens ∧ eligibleFor c slh ssh l = true := by
  refine bestLine_fold_spec c slh ssh
    (fun l => l ∈ opens ∧ eligibleFor c slh ssh l = true) opens none
    (fun _ hl => by cases hl) (fun l hl he => ⟨hl, he⟩) l h

/-- Membership in a list after `replaceFirst`. -/
theorem replaceFirst_mem (opens : List Polyline) (old new l : Polyline)
    (h : l ∈ replaceFirst opens old new) : l ∈ opens ∨ l = new := by
  induction opens with
  | nil => simp [replaceFirst] at h
  | cons x rest ih =>
    simp only [replaceFirst] at h
    split at h
    · rcases List.mem_cons.mp h with h1 | h1
      · right; exact h1
      · left; exact List.mem_cons_of_mem _ h1
    · rcases List.mem_cons.mp h with h1 | h1
      · left; exact h1 ▸ List.mem_cons_self _ _
      · rcases ih h1 with h2 | h2
        · left; exact List.mem_cons_of_mem _ h2
        · right; exact h2

/-- One builder step preserves strict column monotonicity of every open
line. -/
theorem connectStep_chain (slh ssh : ℕ) (opens : List Polyline) (c : CComponent)
    (h : ∀ l ∈ opens, List.Chain' (fun p q : PPoint => p.2 < q.2) l) :
    ∀ l ∈ connectStep slh ssh opens c,
      List.Chain' (fun p q : PPoint => p.2 < q.2) l := by
  intro l hl
  unfold connectStep at hl
  cases hb : bestLine c slh ssh opens with
  | none =>
    rw [hb] at hl
    rcases List.mem_append.mp hl with h1 | h1
    · exact h l h1
    · have : l = compPoints c := by simpa using h1
      subst this
      exact chain_compPointsAux c.row c.w (c.c0 : ℤ)
  | some m =>
    rw [hb] at hl
    rcases replaceFirst_mem opens m (m ++ compPoints c) l hl with h1 | h1
    · exact h l h1
    · subst h1
      obtain ⟨hm, he⟩ := bestLine_spec c slh ssh opens m hb
      refine List.Chain'.append (h m hm) (chain_compPointsAux c.row c.w (c.c0 : ℤ)) ?_
      intro x hx y hy
      rw [show compPoints c = compPointsAux c.row (c.c0 : ℤ) c.w from rfl,
        head_compPointsAux] at hy
      cases hy
      have hx2 : List.getLast? m = some x := hx
      have hx' : lastPt m = x := by simp [lastPt, hx2]
      have he2 : (0 : ℤ) < (c.c0 : ℤ) - (lastPt m).2 := by
        have := (Bool.and_eq_true _ _).mp he
        exact of_decide_eq_true ((Bool.and_eq_true _ _).mp this.1).2
      rw [hx'] at he2
      simp only
      linarith

/-- C8: every line produced by the Line Builder
(`connect_connected_components_to_line`) has strictly increasing columns:
no two points of one line share a column and no point's column is smaller
than its predecessor's. -/
theorem builder_columns_strict_mono (ccs : List CComponent) (slh ssh : ℕ)
    (l : Polyline) (hl : l ∈ connect_connected_components_to_line ccs slh ssh) :
    List.Chain' (fun p q : PPoint => p.2 < q.2) l := by
  unfold connect_connected_components_to_line at hl
  revert hl
  generalize sortByCol ccs = cs
  have main : ∀ (cs : List CComponent) (opens : List Polyline),
      (∀ m ∈ opens, List.Chain' (fun p q : PPoint => p.2 < q.2) m) →
      ∀ m ∈ cs.foldl (connectStep slh ssh) opens,
        List.Chain' (fun p q : PPoint => p.2 < q.2) m := by
    intro cs
    induction cs with
    | nil => intro opens hop m hm; exact hop m hm
    | cons c rest ih =>
      intro opens hop m hm
      exact ih (connectStep slh ssh opens c) (connectStep_chain slh ssh opens c hop) m hm
  intro hl
  exact main cs [] (by simp) l hl

/-- Witness for C8 on a single three-pixel component. -/
theorem builder_columns_strict_mono_witness :
    List.Chain' (fun p q : PPoint => p.2 < q.2)
      [((0 : ℤ), (0 : ℤ)), ((0 : ℤ), (1 : ℤ)), ((0 : ℤ), (2 : ℤ))] :=
  builder_columns_strict_mono [⟨0, 0, 2⟩] 1 1
    [((0 : ℤ), (0 : ℤ)), ((0 : ℤ), (1 : ℤ)), ((0 : ℤ), (2 : ℤ))] (by decide)

/-- A group collected by `collectSys` has exactly the requested number of
lines. -/
theorem collectSys_length (ssh : ℤ) :
    ∀ (n : ℕ) (prev : ℤ) (rest grp r2 : List Polyline),
      collectSys ssh n prev rest = some (grp, r2) → grp.length = n := by
  intro n
  induction n with
  | zero =>
    intro prev rest grp r2 h
    simp only [collectSys] at h
    cases h
    rfl
  | succ n ih =>
    intro prev rest grp r2 h
    cases rest with
    | nil => simp [collectSys] at h
    | cons l rest =>
      simp only [collectSys] at h
      split at h
      · cases hc : collectSys ssh n (rowOf l) rest with
        | none => rw [hc] at h; cases h
        | some gr =>
          rw [hc] at h
          cases h
          simp [ih _ _ _ _ hc]
      · cases h

/-- Every system emitted by the fuelled organizer has exactly `numLine`
lines, provided `numLine` is positive. -/
theorem organizeFuel_length (numLine : ℕ) (ssh : ℤ) (hn : 1 ≤ numLine) :
    ∀ (fuel : ℕ) (lines : List Polyline) (sys : StaffSystem),
      sys ∈ organizeFuel numLine ssh fuel lines → sys.length = numLine := by
  intro fuel
  induction fuel with
  | zero => intro lines sys h; simp [organizeFuel] at h
  | succ fuel ih =>
    intro lines sys h
    cases lines with
    | nil => simp [organizeFuel] at h
    | cons l rest =>
      simp only [organizeFuel] at h
      cases hc : collectSys ssh (numLine - 1) (rowOf l) rest with
      | none => rw [hc] at h; exact ih rest sys h
      | some gr =>
        rw [hc] at h
        rcases List.mem_cons.mp h with h1 | h1
        · subst h1
          have := collectSys_length ssh (numLine - 1) (rowOf l) rest gr.1 gr.2
            (by rw [hc])
          simp only [List.length_cons, this]
          omega
        · exact ih gr.2 sys h1

/-- Mapping a per-system transformation of each line preserves system
sizes. -/
theorem sysLen_mapWith (f : StaffSystem → Polyline → Polyline)
    (sl : List StaffSystem) (n : ℕ) (h : ∀ sys ∈ sl, sys.length = n) :
    ∀ sys ∈ sl.map (fun sys => sys.map (f sys)), sys.length = n := by
  intro sys hs
  rcases List.mem_map.mp hs with ⟨t, ht, rfl⟩
  simp [h t ht]

/-- Iterated smoothing preserves system sizes. -/
theorem sysLen_smoothTimes (n : ℕ) (k : ℕ) :
    ∀ (sl : List StaffSystem), (∀ sys ∈ sl, sys.length = n) →
      ∀ sys ∈ smoothTimes k sl, sys.length = n := by
  induction k with
  | zero => intro sl h sys hs; exact h sys hs
  | succ k ih =>
    intro sl h sys hs
    exact ih _ (sysLen_mapWith _ sl n h) sys hs

/-- The stages following the grouping stage preserve system sizes. -/
theorem sysLen_late_stages (s : LineDetectionSettings) (d : ImageData)
    (n : ℕ) (sl : List StaffSystem) (h : ∀ sys ∈ sl, sys.length = n) :
    ∀ sys ∈ fitStage s (smoothStage s (postStage s d sl)), sys.length = n := by
  have hpost : ∀ sys ∈ postStage s d sl, sys.length = n := by
    unfold postStage
    split
    · split
      · exact sysLen_mapWith _ _ n (sysLen_mapWith _ sl n h)
      · exact sysLen_mapWith _ sl n h
    · exact h
  have hsmooth : ∀ sys ∈ smoothStage s (postStage s d sl), sys.length = n := by
    unfold smoothStage
    split
    · split
      · split
        · exact sysLen_smoothTimes n _ _ (sysLen_mapWith _ _ n hpost)
        · exact sysLen_mapWith _ _ n hpost
      · split
        · exact sysLen_smoothTimes n _ _ hpost
        · exact hpost
    · exact hpost
  unfold fitStage
  split
  · exact sysLen_mapWith _ _ n hsmooth
  · exact hsmooth

/-- C4: with `numLine > 1`, every staff system in the output of
`detect_staff_lines` contains exactly `numLine` lines; incomplete groups
are dropped rather than emitted as smaller systems. -/
theorem systems_have_numLine_lines (s : LineDetectionSettings) (d : ImageData)
    (h : 1 < s.numLine) (sys : StaffSystem)
    (hs : sys ∈ detect_staff_lines s d) : sys.length = s.numLine := by
  have hgroup : ∀ t ∈ groupStage s d (lineStage d), t.length = s.numLine := by
    unfold groupStage
    rw [if_pos h]
    have horg : ∀ t ∈ organize_lines_in_systems (lineStage d)
        d.staff_space_height d.staff_line_height s.numLine,
        t.length = s.numLine := by
      intro t ht
      exact organizeFuel_length s.numLine (d.staff_space_height : ℤ) (by omega)
        _ _ t ht
    have hprune : ∀ t ∈ prune_lines_in_system_with_lowest_intensity
        (organize_lines_in_systems (lineStage d) d.staff_space_height
          d.staff_line_height s.numLine) d.horizontal_runs_img,
        t.length = s.numLine := by
      intro t ht
      exact horg t (List.mem_of_mem_filter ht)
    split
    · exact sysLen_mapWith _ _ s.numLine hprune
    · exact hprune
  exact sysLen_late_stages s d s.numLine (groupStage s d (lineStage d)) hgroup sys hs

/-- Settings with `numLine = 2` and every optional stage off. -/
def settingsTwo : LineDetectionSettings :=
  ⟨2, 6, false, false, 20, none, false, 0, 5, 1, 0⟩

/-- Image data whose run-length image holds two 52-pixel rows of
foreground two rows apart. -/
def dataTwoLines : ImageData :=
  ⟨[], 0, 2, 1,
   [List.replicate 52 true, List.replicate 52 false, List.replicate 52 true]⟩

set_option maxRecDepth 8000 in
/-- Witness for C4: the two-line page yields one system of exactly two
lines. -/
theorem systems_have_numLine_lines_witness :
    ((detect_staff_lines settingsTwo dataTwoLines).getD 0 []).length =
      settingsTwo.numLine :=
  systems_have_numLine_lines settingsTwo dataTwoLines (by decide)
    ((detect_staff_lines settingsTwo dataTwoLines).getD 0 []) (by decide)

/-- First column of a nonempty line is its head's column. -/
theorem firstColOf_cons (p : PPoint) (t : Polyline) : firstColOf (p :: t) = p.2 := by
  simp [firstColOf, colsOf]

/-- Last column of a line ending in an explicit point. -/
theorem lastColOf_concat (X : Polyline) (b : PPoint) : lastColOf (X ++ [b]) = b.2 := by
  simp [lastColOf, colsOf, List.getLast?_concat]

/-- Last column ignores the head of a two-or-more point line. -/
theorem lastColOf_cons_cons (p q : PPoint) (t : Polyline) :
    lastColOf (p :: q :: t) = lastColOf (q :: t) := by
  simp [lastColOf, colsOf, List.getLast?_cons_cons]

/-- Last column of a nonempty line is the column of its last point. -/
theorem lastColOf_eq_lastPt (l : Polyline) (hl : l ≠ []) :
    lastColOf l = (lastPt l).2 := by
  induction l with
  | nil => exact absurd rfl hl
  | cons p t ih =>
    cases t with
    | nil => simp [lastColOf, colsOf, lastPt]
    | cons q t' =>
      rw [lastColOf_cons_cons,
        show lastPt (p :: q :: t') = lastPt (q :: t') from by
          simp [lastPt, List.getLast?_cons_cons]]
      exact ih (by simp)

/-- Spans of a line wrapped in boundary points. -/
theorem span_wrap (p : PPoint) (t : Polyline) (a b : PPoint) :
    spanOf ([a] ++ (p :: t) ++ [b]) = b.2 - a.2 ∧
    spanOf ([a] ++ (p :: t)) = lastColOf (p :: t) - a.2 ∧
    spanOf ((p :: t) ++ [b]) = b.2 - p.2 := by
  refine ⟨?_, ?_, ?_⟩
  · have hshape : [a] ++ (p :: t) ++ [b] = (a :: p :: t) ++ [b] := by simp
    rw [hshape]
    simp only [spanOf]
    rw [lastColOf_concat,
      show ((a :: p :: t) ++ [b] : Polyline) = a :: ((p :: t) ++ [b]) from by simp,
      firstColOf_cons]
  · simp [spanOf, lastColOf_cons_cons, firstColOf_cons]
  · have hshape : (p :: t) ++ [b] = p :: (t ++ [b]) := by simp
    rw [spanOf, lastColOf_concat, hshape, firstColOf_cons]

/-- A line of span over `50` is nonempty. -/
theorem ne_nil_of_span (l : Polyline) (h : 50 < spanOf l) : l ≠ [] := by
  rintro rfl
  simp [spanOf, lastColOf, firstColOf, colsOf] at h

/-- Extension to common system columns never shrinks a span beyond the
`50`-pixel floor. -/
theorem span_extendLine (img : BinImg) (L R : ℤ) (l : Polyline)
    (h : 50 < spanOf l) : 50 < spanOf (extendLine img L R l) := by
  obtain ⟨p, t, rfl⟩ : ∃ p t, l = p :: t := by
    cases l with
    | nil => exact absurd rfl (ne_nil_of_span _ h)
    | cons p t => exact ⟨p, t, rfl⟩
  have hspan : spanOf (p :: t) = lastColOf (p :: t) - firstColOf (p :: t) := rfl
  unfold extendLine
  by_cases h1 : L < firstColOf (p :: t) <;> by_cases h2 : lastColOf (p :: t) < R
  · rw [if_pos ⟨h1, by simp⟩, if_pos ⟨h2, by simp⟩, (span_wrap p t _ _).1]
    rw [hspan] at h
    simp only
    linarith
  · rw [if_pos ⟨h1, by simp⟩, if_neg (fun hc => h2 hc.1), List.append_nil,
      (span_wrap p t _ ((0 : ℤ), (0 : ℤ))).2.1]
    rw [hspan] at h
    simp only
    linarith
  · rw [if_neg (fun hc => h1 hc.1), if_pos ⟨h2, by simp⟩, List.nil_append,
      (span_wrap p t ((0 : ℤ), (0 : ℤ)) _).2.2]
    rw [hspan, firstColOf_cons] at h
    simp only
    linarith
  · rw [if_neg (fun hc => h1 hc.1), if_neg (fun hc => h2 hc.1),
      List.nil_append, List.append_nil]
    exact h

/-- Boundary recovery never shrinks a span beyond the `50`-pixel floor. -/
theorem span_recoverLine (bin : BinImg) (l : Polyline)
    (h : 50 < spanOf l) : 50 < spanOf (recoverLine bin l) := by
  obtain ⟨p, t, rfl⟩ : ∃ p t, l = p :: t := by
    cases l with
    | nil => exact absurd rfl (ne_nil_of_span _ h)
    | cons p t => exact ⟨p, t, rfl⟩
  have hlast : lastColOf (p :: t) = (lastPt (p :: t)).2 :=
    lastColOf_eq_lastPt _ (by simp)
  have hspan : spanOf (p :: t) = lastColOf (p :: t) - firstColOf (p :: t) := rfl
  simp only [recoverLine]
  by_cases h1 : inkAtPt bin (p.1, p.2 - 1) = true <;>
    by_cases h2 : inkAtPt bin ((lastPt (p :: t)).1, (lastPt (p :: t)).2 + 1) = true
  · rw [if_pos h1, if_pos h2, (span_wrap p t _ _).1]
    rw [hspan, firstColOf_cons, hlast] at h
    simp only
    linarith
  · rw [if_pos h1, if_neg h2, List.append_nil, (span_wrap p t _ ((0 : ℤ), (0 : ℤ))).2.1]
    rw [hspan, firstColOf_cons] at h
    simp only
    linarith
  · rw [if_neg h1, if_pos h2, List.nil_append, (span_wrap p t ((0 : ℤ), (0 : ℤ)) _).2.2]
    rw [hspan, firstColOf_cons, hlast] at h
    simp only
    linarith
  · rw [if_neg h1, if_neg h2, List.nil_append, List.append_nil]
    exact h

/-- Smoothing preserves the column list of a line. -/
theorem colsOf_smoothAux (ys : List ℤ) (r : ℕ) :
    ∀ (l : Polyline) (i : ℕ), colsOf (smoothAux ys r i l) = colsOf l := by
  intro l
  induction l with
  | nil => intro i; rfl
  | cons p t ih => intro i; simp [smoothAux, colsOf] at ih ⊢; exact ih (i + 1)

/-- Lines with equal column lists have equal spans. -/
theorem spanOf_congr_cols {l m : Polyline} (h : colsOf l = colsOf m) :
    spanOf l = spanOf m := by
  simp [spanOf, lastColOf, firstColOf, h]

/-- Smoothing preserves spans. -/
theorem spanOf_smoothLine (v : ℚ) (l : Polyline) :
    spanOf (smoothLine v l) = spanOf l :=
  spanOf_congr_cols (colsOf_smoothAux _ _ l 0)

/-- Curve fitting preserves spans (endpoints are kept). -/
theorem spanOf_fitLine (d : ℚ) (l : Polyline) : spanOf (fitLine d l) = spanOf l := by
  match l with
  | [] => rfl
  | [p] => rfl
  | p :: q :: rest =>
    have hlast : lastColOf (p :: q :: rest) = (lastPt (q :: rest)).2 := by
      rw [lastColOf_cons_cons]
      exact lastColOf_eq_lastPt _ (by simp)
    simp only [fitLine]
    rw [← List.cons_append, (span_wrap p _ p (lastPt (q :: rest))).2.2]
    simp only [spanOf]
    rw [hlast, firstColOf_cons]

/-- Membership after row-sorted insertion. -/
theorem insertByRow_mem (l : Polyline) (ls : List Polyline) (m : Polyline)
    (h : m ∈ insertByRow l ls) : m = l ∨ m ∈ ls := by
  induction ls with
  | nil => simp [insertByRow] at h; exact Or.inl h
  | cons x rest ih =>
    simp only [insertByRow] at h
    split at h
    · rcases List.mem_cons.mp h with h1 | h1
      · exact Or.inl h1
      · exact Or.inr h1
    · rcases List.mem_cons.mp h with h1 | h1
      · exact Or.inr (h1 ▸ List.mem_cons_self _ _)
      · rcases ih h1 with h2 | h2
        · exact Or.inl h2
        · exact Or.inr (List.mem_cons_of_mem _ h2)

/-- Row sorting preserves membership. -/
theorem sortByRow_mem (ls : List Polyline) (m : Polyline)
    (h : m ∈ sortByRow ls) : m ∈ ls := by
  induction ls with
  | nil => simp [sortByRow] at h
  | cons x rest ih =>
    simp only [sortByRow] at h
    rcases insertByRow_mem x (sortByRow rest) m h with h1 | h1
    · exact h1 ▸ List.mem_cons_self _ _
    · exact List.mem_cons_of_mem _ (ih h1)

/-- Lines collected by `collectSys`, and the unconsumed rest, come from the
input list. -/
theorem collectSys_subset (ssh : ℤ) :
    ∀ (n : ℕ) (prev : ℤ) (rest grp r2 : List Polyline),
      collectSys ssh n prev rest = some (grp, r2) →
      (∀ l ∈ grp, l ∈ rest) ∧ (∀ l ∈ r2, l ∈ rest) := by
  intro n
  induction n with
  | zero =>
    intro prev rest grp r2 h
    simp only [collectSys] at h
    cases h
    exact ⟨fun l hl => by simp at hl, fun l hl => hl⟩
  | succ n ih =>
    intro prev rest grp r2 h
    cases rest with
    | nil => simp [collectSys] at h
    | cons x rest =>
      simp only [collectSys] at h
      split at h
      · cases hc : collectSys ssh n (rowOf x) rest with
        | none => rw [hc] at h; cases h
        | some gr =>
          rw [hc] at h
          cases h
          obtain ⟨hg, hr⟩ := ih (rowOf x) rest gr.1 gr.2 (by rw [hc])
          constructor
          · intro l hl
            rcases List.mem_cons.mp hl with h1 | h1
            · exact h1 ▸ List.mem_cons_self _ _
            · exact List.mem_cons_of_mem _ (hg l h1)
          · intro l hl
            exact List.mem_cons_of_mem _ (hr l hl)
      · cases h

/-- Every line of every system emitted by the fuelled organizer comes from
the input line list. -/
theorem organizeFuel_mem (numLine : ℕ) (ssh : ℤ) :
    ∀ (fuel : ℕ) (lines : List Polyline) (sys : StaffSystem) (l : Polyline),
      sys ∈ organizeFuel numLine ssh fuel lines → l ∈ sys → l ∈ lines := by
  intro fuel
  induction fuel with
  | zero => intro lines sys l h; simp [organizeFuel] at h
  | succ fuel ih =>
    intro lines sys l h hl
    cases lines with
    | nil => simp [organizeFuel] at h
    | cons x rest =>
      simp only [organizeFuel] at h
      cases hc : collectSys ssh (numLine - 1) (rowOf x) rest with
      | none =>
        rw [hc] at h
        exact List.mem_cons_of_mem _ (ih rest sys l h hl)
      | some gr =>
        rw [hc] at h
        obtain ⟨hg, hr⟩ := collectSys_subset ssh (numLine - 1) (rowOf x) rest
          gr.1 gr.2 (by rw [hc])
        rcases List.mem_cons.mp h with h1 | h1
        · subst h1
          rcases List.mem_cons.mp hl with h2 | h2
          · exact h2 ▸ List.mem_cons_self _ _
          · exact List.mem_cons_of_mem _ (hg l h2)
        · exact List.mem_cons_of_mem _ (hr l (ih gr.2 sys l h1 hl))

/-- Every line surviving the line stage has span over `50`. -/
theorem lineStage_span (d : ImageData) :
    ∀ l ∈ lineStage d, 50 < spanOf l := by
  intro l hl
  simp only [lineStage, prune_small_lines] at hl
  have h1 := (List.mem_filter.mp hl).1
  exact of_decide_eq_true (List.mem_filter.mp h1).2

/-- Per-system line transformations preserve the span floor when the
per-line transformation does. -/
theorem spanAll_mapWith (f : StaffSystem → Polyline → Polyline)
    (hf : ∀ sys l, 50 < spanOf l → 50 < spanOf (f sys l))
    (sl : List StaffSystem) (h : ∀ sys ∈ sl, ∀ l ∈ sys, 50 < spanOf l) :
    ∀ sys ∈ sl.map (fun sys => sys.map (f sys)), ∀ l ∈ sys, 50 < spanOf l := by
  intro sys hs l hl
  rcases List.mem_map.mp hs with ⟨t, ht, rfl⟩
  rcases List.mem_map.mp hl with ⟨m, hm, rfl⟩
  exact hf t m (h t ht m hm)

/-- Iterated smoothing preserves the span floor. -/
theorem spanAll_smoothTimes (k : ℕ) :
    ∀ (sl : List StaffSystem), (∀ sys ∈ sl, ∀ l ∈ sys, 50 < spanOf l) →
      ∀ sys ∈ smoothTimes k sl, ∀ l ∈ sys, 50 < spanOf l := by
  induction k with
  | zero => intro sl h; exact h
  | succ k ih =>
    intro sl h
    exact ih _ (spanAll_mapWith _ (fun _ l hl => (spanOf_smoothLine _ l) ▸ hl) sl h)

/-- The stages following the grouping stage preserve the span floor. -/
theorem spanAll_late_stages (s : LineDetectionSettings) (d : ImageData)
    (sl : List StaffSystem) (h : ∀ sys ∈ sl, ∀ l ∈ sys, 50 < spanOf l) :
    ∀ sys ∈ fitStage s (smoothStage s (postStage s d sl)), ∀ l ∈ sys,
      50 < spanOf l := by
  have hpost : ∀ sys ∈ postStage s d sl, ∀ l ∈ sys, 50 < spanOf l := by
    unfold postStage
    split
    · split
      · exact spanAll_mapWith _ (fun t m => span_extendLine _ _ _ m) _
          (spanAll_mapWith _ (fun t m => span_recoverLine _ m) sl h)
      · exact spanAll_mapWith _ (fun t m => span_recoverLine _ m) sl h
    · exact h
  have hsmooth : ∀ sys ∈ smoothStage s (postStage s d sl), ∀ l ∈ sys,
      50 < spanOf l := by
    unfold smoothStage
    split
    · split
      · split
        · exact spanAll_smoothTimes _ _
            (spanAll_mapWith _ (fun _ l hl => (spanOf_smoothLine _ l) ▸ hl) _ hpost)
        · exact spanAll_mapWith _ (fun _ l hl => (spanOf_smoothLine _ l) ▸ hl) _ hpost
      · split
        · exact spanAll_smoothTimes _ _ hpost
        · exact hpost
    · exact hpost
  unfold fitStage
  split
  · exact spanAll_mapWith _ (fun _ l hl => (spanOf_fitLine _ l) ▸ hl) _ hsmooth
  · exact hsmooth

/-- C1: every line in every staff system returned by `detect_staff_lines`
has horizontal span strictly greater than `50` pixels, the `50`-pixel
length filter being preserved by all later stages. -/
theorem output_lines_span_gt_50 (s : LineDetectionSettings) (d : ImageData)
    (sys : StaffSystem) (l : Polyline)
    (hs : sys ∈ detect_staff_lines s d) (hl : l ∈ sys) : 50 < spanOf l := by
  have hgroup : ∀ t ∈ groupStage s d (lineStage d), ∀ m ∈ t, 50 < spanOf m := by
    unfold groupStage
    split
    · have horg : ∀ t ∈ organize_lines_in_systems (lineStage d)
          d.staff_space_height d.staff_line_height s.numLine,
          ∀ m ∈ t, 50 < spanOf m := by
        intro t ht m hm
        have h1 := organizeFuel_mem s.numLine (d.staff_space_height : ℤ) _ _ t m ht hm
        exact lineStage_span d m (sortByRow_mem _ m h1)
      have hprune : ∀ t ∈ prune_lines_in_system_with_lowest_intensity
          (organize_lines_in_systems (lineStage d) d.staff_space_height
            d.staff_line_height s.numLine) d.horizontal_runs_img,
          ∀ m ∈ t, 50 < spanOf m := by
        intro t ht
        exact horg t (List.mem_of_mem_filter ht)
      split
      · exact spanAll_mapWith _ (fun t m => span_extendLine _ _ _ m) _ hprune
      · exact hprune
    · intro t ht m hm
      rcases List.mem_map.mp ht with ⟨x, hx, rfl⟩
      rcases List.mem_cons.mp hm with h1 | h1
      · exact h1 ▸ lineStage_span d x hx
      · simp at h1
  exact spanAll_late_stages s d _ hgroup sys hs l hl

set_option maxRecDepth 8000 in
/-- Witness for C1 on the two-line page with singleton systems. -/
theorem output_lines_span_gt_50_witness :
    50 < spanOf (((detect_staff_lines settingsSingle dataTwoLines).getD 0 []).getD 0 []) :=
  output_lines_span_gt_50 settingsSingle dataTwoLines
    ((detect_staff_lines settingsSingle dataTwoLines).getD 0 [])
    (((detect_staff_lines settingsSingle dataTwoLines).getD 0 []).getD 0 [])
    (by decide) (by decide)

/-- All entries of a grid satisfy a predicate. -/
def gridAll {α : Type} (P : α → Prop) (g : List (List α)) : Prop :=
  ∀ row ∈ g, ∀ v ∈ row, P v

/-- Folding `min` over a constant list is the identity. -/
theorem foldl_min_const (c : ℚ) :
    ∀ (vs : List ℚ), (∀ v ∈ vs, v = c) → vs.foldl min c = c := by
  intro vs
  induction vs with
  | nil => intro _; rfl
  | cons v t ih =>
    intro h
    have hv : v = c := h v (List.mem_cons_self _ _)
    simp only [List.foldl_cons, hv, min_self]
    exact ih (fun w hw => h w (List.mem_cons_of_mem _ hw))

/-- Folding `max` over a constant list is the identity. -/
theorem foldl_max_const (c : ℚ) :
    ∀ (vs : List ℚ), (∀ v ∈ vs, v = c) → vs.foldl max c = c := by
  intro vs
  induction vs with
  | nil => intro _; rfl
  | cons v t ih =>
    intro h
    have hv : v = c := h v (List.mem_cons_self _ _)
    simp only [List.foldl_cons, hv, max_self]
    exact ih (fun w hw => h w (List.mem_cons_of_mem _ hw))

/-- On a constant grid the minimum and maximum coincide. -/
theorem gridMin_eq_gridMax (g : GrayImg) (c : ℚ) (h : gridAll (fun v => v = c) g) :
    gridMin g = gridMax g := by
  have hflat : ∀ v ∈ g.flatten, v = c := by
    intro v hv
    rcases List.mem_flatten.mp hv with ⟨row, hrow, hvr⟩
    exact h row hrow v hvr
  unfold gridMin gridMax
  cases hg : g.flatten with
  | nil => rfl
  | cons v vs =>
    have hv : v = c := hflat v (hg ▸ List.mem_cons_self _ _)
    have hvs : ∀ w ∈ vs, w = c := fun w hw =>
      hflat w (hg ▸ List.mem_cons_of_mem _ hw)
    subst hv
    show List.foldl min v vs = List.foldl max v vs
    rw [foldl_min_const v vs hvs, foldl_max_const v vs hvs]

/-- The enhancer is the identity on a constant grid. -/
theorem enhance_const (g : GrayImg) (c : ℚ) (h : gridAll (fun v => v = c) g) :
    enhance g = g := by
  unfold enhance
  rw [if_pos (gridMin_eq_gridMax g c h)]

/-- Scaling a blank raw image yields the constant-one grid. -/
theorem scaleImg_blank (img : RawImg) (hb : gridAll (fun v => v = 255) img) :
    gridAll (fun v => v = (1 : ℚ)) (scaleImg img) := by
  intro row hrow v hv
  rcases List.mem_map.mp hrow with ⟨r, hr, rfl⟩
  rcases List.mem_map.mp hv with ⟨w, hw, rfl⟩
  rw [hb r hr w hw]
  norm_num

/-- The grayscale kept by `detect_basic` on a blank image is constant one,
whether or not enhancement runs. -/
theorem basic_gray_blank (img : RawImg) (hb : gridAll (fun v => v = 255) img) :
    gridAll (fun v => v = (1 : ℚ)) (basic_gray img) := by
  simp only [basic_gray]
  split
  · rw [enhance_const _ 1 (scaleImg_blank img hb)]
    exact scaleImg_blank img hb
  · exact scaleImg_blank img hb

/-- Binarization of a constant-one grid is all white. -/
theorem binarize_one (g : GrayImg) (h : gridAll (fun v => v = (1 : ℚ)) g) :
    gridAll (fun b => b = true) (binarize g) := by
  intro row hrow b hb
  rcases List.mem_map.mp hrow with ⟨r, hr, rfl⟩
  rcases List.mem_map.mp hb with ⟨w, hw, rfl⟩
  rw [h r hr w hw]
  norm_num

/-- Complementing a constant grid. -/
theorem notGrid_const (g : BinImg) (c : Bool) (h : gridAll (fun b => b = c) g) :
    gridAll (fun b => b = !c) (notGrid g) := by
  intro row hrow b hb
  rcases List.mem_map.mp hrow with ⟨r, hr, rfl⟩
  rcases List.mem_map.mp hb with ⟨w, hw, rfl⟩
  rw [h r hr w hw]

/-- An element read with a default either is the default or belongs to the
list. -/
theorem getD_mem_or {α : Type} (l : List α) (i : ℕ) (d : α) :
    l.getD i d = d ∨ l.getD i d ∈ l := by
  rw [List.getD_eq_getElem?_getD]
  cases hg : l[i]? with
  | none => left; rfl
  | some a => right; simp only [Option.getD_some]; exact List.getElem?_mem hg


/-- Pixel reads of an all-background image are background. -/
theorem pixAt_allFalse (b : BinImg) (h : gridAll (fun x => x = false) b)
    (y x : ℤ) : pixAt b y x = false := by
  unfold pixAt
  split
  · rfl
  · rcases getD_mem_or b y.toNat [] with hr | hr
    · rw [hr]; rfl
    · rcases getD_mem_or (b.getD y.toNat []) x.toNat false with hv | hv
      · exact hv
      · exact h _ hr _ hv

/-- Erosion of an all-background image is all background. -/
theorem erosion_allFalse (b : BinImg) (h : gridAll (fun x => x = false) b) :
    gridAll (fun x => x = false) (binary_erosion5 b) := by
  intro row hrow v hv
  rcases List.mem_map.mp hrow with ⟨yr, _, rfl⟩
  rcases List.mem_map.mp hv with ⟨xv, _, rfl⟩
  simp [vWindow, pixAt_allFalse b h]

/-- Dilation of an all-background image is all background. -/
theorem dilation_allFalse (b : BinImg) (h : gridAll (fun x => x = false) b) :
    gridAll (fun x => x = false) (binary_dilation5 b) := by
  intro row hrow v hv
  rcases List.mem_map.mp hrow with ⟨yr, _, rfl⟩
  rcases List.mem_map.mp hv with ⟨xv, _, rfl⟩
  simp [vWindow, pixAt_allFalse b h]

/-- Exclusive or of two all-background images is all background. -/
theorem xorGrid_allFalse (a b : BinImg)
    (ha : gridAll (fun x => x = false) a) (hb : gridAll (fun x => x = false) b) :
    gridAll (fun x => x = false) (xorGrid a b) := by
  intro row hrow v hv
  rcases List.mem_map.mp hrow with ⟨rr, hrr, rfl⟩
  rcases List.mem_map.mp hv with ⟨xy, hxy, rfl⟩
  obtain ⟨h1, h2⟩ := List.of_mem_zip hrr
  obtain ⟨h3, h4⟩ := List.of_mem_zip hxy
  rw [ha _ h1 _ h3, hb _ h2 _ h4]
  rfl

/-- Runs of a constant row all carry the constant. -/
theorem splitRuns_fst (c : Bool) :
    ∀ (row : List Bool), (∀ b ∈ row, b = c) → ∀ r ∈ splitRuns row, r.1 = c := by
  intro row
  induction row with
  | nil => intro _ r hr; simp [splitRuns] at hr
  | cons b t ih =>
    intro h r hr
    have hb : b = c := h b (List.mem_cons_self _ _)
    have ht : ∀ x ∈ t, x = c := fun x hx => h x (List.mem_cons_of_mem _ hx)
    cases hs : splitRuns t with
    | nil =>
      simp only [splitRuns, hs] at hr
      rcases List.mem_singleton.mp hr with rfl
      exact hb
    | cons r2 rs =>
      obtain ⟨b2, n2⟩ := r2
      simp only [splitRuns, hs] at hr
      have hr2 : b2 = c := ih ht (b2, n2) (hs ▸ List.mem_cons_self _ _)
      have hrs : ∀ x ∈ rs, x.1 = c := fun x hx =>
        ih ht x (hs ▸ List.mem_cons_of_mem _ hx)
      split at hr
      · rcases List.mem_cons.mp hr with h1 | h1
        · subst h1; exact hr2
        · exact hrs _ h1
      · rcases List.mem_cons.mp hr with h1 | h1
        · subst h1; exact hb
        · rcases List.mem_cons.mp h1 with h2 | h2
          · subst h2; exact hr2
          · exact hrs _ h2

/-- Marking runs of a no-ink row yields no foreground. -/
theorem markRuns_allTrue (minL : ℕ) (rs : List (Bool × ℕ))
    (h : ∀ r ∈ rs, r.1 = true) : ∀ v ∈ markRuns minL rs, v = false := by
  intro v hv
  rcases List.mem_flatten.mp hv with ⟨rep, hrep, hvr⟩
  rcases List.mem_map.mp hrep with ⟨r, hr, rfl⟩
  rw [List.eq_of_mem_replicate hvr, h r hr]
  rfl

/-- The horizontal-run filter of a no-ink image is all background. -/
theorem chr_allTrue (g : BinImg) (minL : ℕ)
    (h : gridAll (fun x => x = true) g) :
    gridAll (fun x => x = false) (calculate_horizontal_runs g minL) := by
  intro row hrow v hv
  rcases List.mem_map.mp hrow with ⟨r, hr, rfl⟩
  exact markRuns_allTrue minL _ (splitRuns_fst true r (h r hr)) v hv

/-- No components arise from runs that are all background. -/
theorem runsToCCs_nil (y : ℤ) :
    ∀ (rs : List (Bool × ℕ)), (∀ r ∈ rs, r.1 = false) →
      ∀ x, runsToCCs y x rs = [] := by
  intro rs
  induction rs with
  | nil => intro _ x; rfl
  | cons r t ih =>
    intro h x
    have hr : r.1 = false := h r (List.mem_cons_self _ _)
    simp only [runsToCCs]
    rw [if_neg (by simp [hr]), List.nil_append]
    exact ih (fun s hs => h s (List.mem_cons_of_mem _ hs)) (x + r.2)

/-- The second component of an enumerated entry belongs to the list. -/
theorem enumFrom_snd_mem {α : Type} :
    ∀ (l : List α) (n : ℕ) (p : ℕ × α), p ∈ l.enumFrom n → p.2 ∈ l := by
  intro l
  induction l with
  | nil => intro n p hp; simp [List.enumFrom] at hp
  | cons x t ih =>
    intro n p hp
    simp only [List.enumFrom] at hp
    rcases List.mem_cons.mp hp with h1 | h1
    · rw [h1]; exact List.mem_cons_self _ _
    · exact List.mem_cons_of_mem _ (ih (n + 1) p h1)

/-- No components are extracted from an all-background image. -/
theorem extract_nil (g : BinImg) (h : gridAll (fun x => x = false) g) :
    extract_connected_components g = [] := by
  unfold extract_connected_components
  rw [List.flatten_eq_nil_iff]
  intro x hx
  rcases List.mem_map.mp hx with ⟨yr, hyr, rfl⟩
  have hrow : yr.2 ∈ g := enumFrom_snd_mem g 0 yr hyr
  exact runsToCCs_nil _ _ (splitRuns_fst false yr.2 (h yr.2 hrow)) 0

/-- Iterated smoothing of an empty staff list is empty. -/
theorem smoothTimes_nil (k : ℕ) : smoothTimes k [] = [] := by
  induction k with
  | zero => rfl
  | succ k ih => exact ih

/-- With no extracted components, the whole pipeline returns the empty
system list. -/
theorem detect_staff_lines_nil (s : LineDetectionSettings) (d : ImageData)
    (h : extract_connected_components d.horizontal_runs_img = []) :
    detect_staff_lines s d = [] := by
  have h1 : lineStage d = [] := by
    simp only [lineStage]
    rw [h]
    rfl
  have h2 : groupStage s d [] = [] := by
    unfold groupStage
    split
    · split <;> rfl
    · rfl
  have h3 : postStage s d [] = [] := by
    unfold postStage
    split
    · split <;> rfl
    · rfl
  have h4 : smoothStage s [] = [] := by
    simp only [smoothStage]
    split_ifs <;> first | rfl | exact smoothTimes_nil _
  have h5 : fitStage s [] = [] := by
    unfold fitStage
    split <;> rfl
  unfold detect_staff_lines
  rw [h1, h2, h3, h4, h5]

set_option maxHeartbeats 1000000 in
/-- C3: for every blank input image (all pixels at the background value
`255`), the basic pipeline does not fail and returns the empty
staff-system list. -/
theorem blank_image_empty_output (s : LineDetectionSettings) (img : RawImg)
    (hb : ∀ row ∈ img, ∀ v ∈ row, v = 255) :
    process_basic s img = [] := by
  have hr : (basic_image_data s img).horizontal_runs_img =
      calculate_horizontal_runs
        (notGrid (xorGrid (notGrid (binarize (basic_gray img)))
          (binary_dilation5 (binary_erosion5 (notGrid (binarize (basic_gray img)))))))
        s.minLength := rfl
  show detect_staff_lines s (basic_image_data s img) = []
  apply detect_staff_lines_nil
  rw [hr]
  apply extract_nil
  have hbin : gridAll (fun b => b = true) (binarize (basic_gray img)) :=
    binarize_one _ (basic_gray_blank img hb)
  have hbinz : gridAll (fun b => b = false) (notGrid (binarize (basic_gray img))) := by
    have := notGrid_const _ true hbin
    simpa using this
  have hero := erosion_allFalse _ hbinz
  have hdil := dilation_allFalse _ hero
  have hstaffs := xorGrid_allFalse _ _ hbinz hdil
  have hnot : gridAll (fun b => b = true)
      (notGrid (xorGrid (notGrid (binarize (basic_gray img)))
        (binary_dilation5 (binary_erosion5 (notGrid (binarize (basic_gray img))))))) := by
    have := notGrid_const _ false hstaffs
    simpa using this
  exact chr_allTrue _ s.minLength hnot

/-- Witness for C3 on a concrete two-by-two blank image. -/
theorem blank_image_empty_output_witness :
    process_basic settingsBasic [[255, 255], [255, 255]] = [] :=
  blank_image_empty_output settingsBasic [[255, 255], [255, 255]] (by decide)

/-- C10: in `detect_basic`, contrast enhancement is skipped exactly when
the 10-bin histogram of the scaled image carries no mass in bins `1`
through `7` (the `[1:-2]` slice); otherwise the enhanced image is used;
and the image stored in `ImageData.image` is the raw input divided by
`255` in either case. -/
theorem histogram_gates_enhancement (s : LineDetectionSettings) (img : RawImg) :
    (basic_image_data s img).image = scaleImg img ∧
    (histInner (np_histogram (scaleImg img)) = 0 → basic_gray img = scaleImg img) ∧
    (histInner (np_histogram (scaleImg img)) ≠ 0 →
      basic_gray img = enhance (scaleImg img)) := by
  refine ⟨rfl, ?_, ?_⟩ <;> intro h <;> simp only [basic_gray]
  · rw [if_neg (by simp [h])]
  · rw [if_pos h]

/-- Witness for C10 on a two-pixel image whose histogram mass sits in the
extreme bins only, so enhancement is skipped. -/
theorem histogram_gates_enhancement_witness :
    basic_gray [[0, 255]] = scaleImg [[0, 255]] :=
  (histogram_gates_enhancement settingsBasic [[0, 255]]).2.1 (by
    have e : scaleImg [[0, 255]] = [[0, 1]] := by norm_num [scaleImg]
    rw [e]
    simp only [np_histogram, gridMin, gridMax, binIdx, histInner]
    norm_num [min_def, max_def, List.filter,
      show List.range 10 = [0, 1, 2, 3, 4, 5, 6, 7, 8, 9] from rfl])
